import Mathlib

/-!
# word-highlighter: the matching and reload cycle of `src/extension.js`

A shallow embedding of `escapeRegExp`, `findAllOccurrences`, `updateDecorations`,
`disposeDecorationTypes` and `loadConfiguration`.

* A JavaScript string is its sequence of UTF-16 code units (`JSString`), which is what
  `String.prototype.length` counts and what a regular expression without the `u` flag
  walks over.
* `new RegExp(source, 'g')` and `RegExp.prototype.exec` are language built-ins.  They are
  embedded for the fragment of the pattern language that has no operator: word-boundary
  assertions, pattern characters and identity escapes.  A source outside that fragment is
  answered by `Outcome.notModelled`, never by a guess.
* The `while ((match = wordRegex.exec(text)) !== null)` loop is run with an iteration
  budget; `Outcome.outOfFuel` says the loop was still running when the budget ended.
-/

namespace WordHighlighter

/-! ## Strings -/

/-- A JavaScript string: the list of its UTF-16 code units, each a number below 65536. -/
abbrev JSString := List Nat

/-- UTF-16 encoding of one Unicode scalar value. -/
def utf16Char (c : Char) : List Nat :=
  if c.toNat < 65536 then [c.toNat]
  else [55296 + (c.toNat - 65536) / 1024, 56320 + (c.toNat - 65536) % 1024]

/-- The JavaScript string written by a Lean string literal. -/
def utf16 (s : String) : JSString :=
  s.toList.flatMap utf16Char

/-- The call `text.slice(s, e)` for `0 ≤ s ≤ e`. -/
def slice (text : JSString) (s e : Nat) : JSString :=
  (text.drop s).take (e - s)

/-! ## `escapeRegExp` -/

/-- Membership in the character class of `escapeRegExp`,
`[.*+?^${}()|[\]\\]`: the fourteen characters `. * + ? ^ $ { } ( ) | [ ] \`. -/
def isEscaped (c : Nat) : Bool :=
  c == 46 || c == 42 || c == 43 || c == 63 || c == 94 || c == 36 || c == 123 || c == 125 ||
  c == 40 || c == 41 || c == 124 || c == 91 || c == 93 || c == 92

/-- The call `string.replace(/[.*+?^${}()|[\]\\]/g, '\\$&')`: every character of the class is
replaced by a backslash followed by itself; every other character is kept. -/
def escapeRegExp : JSString → JSString
  | [] => []
  | c :: rest => if isEscaped c then 92 :: c :: escapeRegExp rest else c :: escapeRegExp rest

/-! ## The regular expression built-ins, for operator-free patterns -/

/-- ECMAScript `SyntaxCharacter`: one of `^ $ \ . * + ? ( ) [ ] { } |`. -/
def isSyntaxCharacter (c : Nat) : Bool :=
  c == 94 || c == 36 || c == 92 || c == 46 || c == 42 || c == 43 || c == 63 || c == 40 ||
  c == 41 || c == 91 || c == 93 || c == 123 || c == 125 || c == 124

/-- A term of an operator-free pattern. -/
inductive Term where
  /-- the assertion `\b` -/
  | wordBoundary
  /-- one literal code unit: a pattern character, or an escaped syntax character -/
  | char (c : Nat)
  deriving DecidableEq, Repr

/-- Parsing of a pattern source.  `\b` is the word-boundary assertion, a backslash before a
syntax character is an identity escape (that character, literally), a character that is not
a syntax character stands for itself.  An unescaped syntax character is an operator and any
other escape is a class, a back-reference or a control escape: such a source lies outside
the fragment and the answer is `none`. -/
def parsePattern : List Nat → Option (List Term)
  | [] => some []
  | [c] => if isSyntaxCharacter c then none else some [Term.char c]
  | c :: d :: rest =>
    if c = 92 then
      if d = 98 then (parsePattern rest).map (Term.wordBoundary :: ·)
      else if isSyntaxCharacter d then (parsePattern rest).map (Term.char d :: ·)
      else none
    else if isSyntaxCharacter c then none
    else (parsePattern (d :: rest)).map (Term.char c :: ·)

/-- ECMAScript `WordCharacters` without the `u` and `i` flags: `a-z`, `A-Z`, `0-9`, `_`. -/
def isWordChar (c : Nat) : Bool :=
  (97 ≤ c && c ≤ 122) || (65 ≤ c && c ≤ 90) || (48 ≤ c && c ≤ 57) || c == 95

/-- ECMAScript `IsWordChar(e)` for `0 ≤ e`: false at `e = InputLength`. -/
def wordCharAt (text : JSString) (e : Nat) : Bool :=
  match text[e]? with
  | none => false
  | some c => isWordChar c

/-- ECMAScript `IsWordChar(e - 1)`: false at `e - 1 = -1`. -/
def wordCharBefore (text : JSString) (e : Nat) : Bool :=
  match e with
  | 0 => false
  | k + 1 => wordCharAt text k

/-- The assertion `\b` at position `e`: `IsWordChar(e - 1)` and `IsWordChar(e)` differ. -/
def wordBoundaryAt (text : JSString) (e : Nat) : Bool :=
  wordCharBefore text e != wordCharAt text e

/-- The matcher of an operator-free pattern, started at position `i`: the end position of
the match, or `none`.  There is no choice point, hence no backtracking. -/
def matchTerms (text : JSString) : List Term → Nat → Option Nat
  | [], i => some i
  | Term.wordBoundary :: ts, i => if wordBoundaryAt text i then matchTerms text ts i else none
  | Term.char c :: ts, i => if text[i]? = some c then matchTerms text ts (i + 1) else none

/-- A regular expression object with the `g` flag: its compiled pattern and `lastIndex`. -/
structure RegExp where
  terms : List Term
  lastIndex : Nat
  deriving DecidableEq, Repr

/-- The constructor call `new RegExp(source, 'g')`; `lastIndex` starts at 0. -/
def RegExp.new (source : JSString) : Option RegExp :=
  (parsePattern source).map fun ts => { terms := ts, lastIndex := 0 }

/-- The search of `RegExpBuiltinExec`: try the start positions `i`, `i + 1`, ... for `n`
positions; the first success gives the match index and its end. -/
def searchFrom (terms : List Term) (text : JSString) : Nat → Nat → Option (Nat × Nat)
  | 0, _ => none
  | n + 1, i =>
    match matchTerms text terms i with
    | some e => some (i, e)
    | none => searchFrom terms text n (i + 1)

/-- The call `re.exec(text)` of a global regular expression: `RegExpBuiltinExec`.  The
search starts at `lastIndex` and tries every start position up to `text.length`
inclusive.  On failure the answer is `null` and `lastIndex` is reset to 0; on success the
answer carries the match index and `lastIndex` becomes the end of the match.  -/
def RegExp.exec (re : RegExp) (text : JSString) : Option Nat × RegExp :=
  match searchFrom re.terms text (text.length + 1 - re.lastIndex) re.lastIndex with
  | none => (none, { re with lastIndex := 0 })
  | some (index, e) => (some index, { re with lastIndex := e })

/-! ## `findAllOccurrences` -/

/-- What a call that contains the scan loop does. -/
inductive Outcome (α : Type) where
  /-- the call returns this value -/
  | returned (value : α)
  /-- the loop was still running after the budgeted number of iterations -/
  | outOfFuel
  /-- the pattern source is outside the embedded fragment of the pattern language -/
  | notModelled
  deriving DecidableEq, Repr

/-- The `vscode.TextDocument` collaborator, as far as the code uses it: the conversion of a
character offset into the position representation `P` of the host. -/
structure TextDocument (P : Type) where
  positionAt : Nat → P

/-- The document whose positions are the character offsets themselves. -/
def TextDocument.offsets : TextDocument Nat := { positionAt := id }

/-- A `vscode.Range`: start and end position. -/
abbrev Range (P : Type) := P × P

/-- The source handed to `new RegExp` in `findAllOccurrences`: the template literal
`\\b${escapeRegExp(word)}\\b`, that is `\b`, the escaped word, `\b`. -/
def patternSource (word : JSString) : JSString :=
  [92, 98] ++ escapeRegExp word ++ [92, 98]

/-- The loop `while ((match = wordRegex.exec(text)) !== null) { ... ranges.push(...) }`
with an iteration budget. -/
def scanLoop {P : Type} (document : TextDocument P) (text word : JSString) :
    Nat → RegExp → List (Range P) → Outcome (List (Range P))
  | 0, _, _ => Outcome.outOfFuel
  | fuel + 1, wordRegex, ranges =>
    match wordRegex.exec text with
    | (none, _) => Outcome.returned ranges
    | (some index, wordRegex') =>
      scanLoop document text word fuel wordRegex'
        (ranges ++ [(document.positionAt index, document.positionAt (index + word.length))])

/-- The function `findAllOccurrences(text, word, document)`. -/
def findAllOccurrences {P : Type} (fuel : Nat) (text word : JSString)
    (document : TextDocument P) : Outcome (List (Range P)) :=
  match RegExp.new (patternSource word) with
  | none => Outcome.notModelled
  | some wordRegex => scanLoop document text word fuel wordRegex []

/-! ## `updateDecorations` -/

/-- One element `{ word, decorationType }` of the module variable `decorationTypes`; the
render-style handle of the host is named by a number. -/
structure DecorationEntry where
  word : JSString
  decorationType : Nat
  deriving DecidableEq, Repr

/-- A value produced by `JSON.parse`.  The code never looks at the value of a number, only at
the fact that it is one, so integers stand for them.  An object is the list of its own
enumerable properties in the property order of the language. -/
inductive JValue where
  | null
  | bool (b : Bool)
  | number (n : Int)
  | string (s : JSString)
  | array (elements : List JValue)
  | object (entries : List (JSString × JValue))

/-- The module-level variables of `extension.js`. -/
structure State where
  decorationTypes : List DecorationEntry
  wordColorMap : JValue

/-- The state at module load: `let decorationTypes = []; let wordColorMap = {};`. -/
def State.initial : State := { decorationTypes := [], wordColorMap := JValue.object [] }

/-- A `vscode.TextEditor`, as far as the code uses it: `editor.document.getText()` and
`editor.document`. -/
structure TextEditor (P : Type) where
  text : JSString
  document : TextDocument P

/-- One call `editor.setDecorations(decorationType, decorationRanges)`. -/
abbrev SetDecorations (P : Type) := Nat × List (Range P)

/-- The loop `for (const { word, decorationType } of decorationTypes) { ... }` of
`updateDecorations`; `requests` are the `setDecorations` calls issued so far. -/
def applyDecorations {P : Type} (fuel : Nat) (editor : TextEditor P) :
    List DecorationEntry → List (SetDecorations P) → Outcome (List (SetDecorations P))
  | [], requests => Outcome.returned requests
  | entry :: rest, requests =>
    match findAllOccurrences fuel editor.text entry.word editor.document with
    | Outcome.returned decorationRanges =>
      applyDecorations fuel editor rest (requests ++ [(entry.decorationType, decorationRanges)])
    | Outcome.outOfFuel => Outcome.outOfFuel
    | Outcome.notModelled => Outcome.notModelled

/-- The function `updateDecorations(editor)`: the module state after the call and the
`setDecorations` calls it issued, in order.  `editor` is `none` for a falsy argument. -/
def updateDecorations {P : Type} (fuel : Nat) (editor : Option (TextEditor P)) (st : State) :
    Outcome (State × List (SetDecorations P)) :=
  match editor with
  | none => Outcome.returned (st, [])
  | some ed =>
    if st.decorationTypes.length = 0 then Outcome.returned (st, [])
    else
      match applyDecorations fuel ed st.decorationTypes [] with
      | Outcome.returned requests => Outcome.returned (st, requests)
      | Outcome.outOfFuel => Outcome.outOfFuel
      | Outcome.notModelled => Outcome.notModelled

/-! ## `disposeDecorationTypes` and `loadConfiguration` -/

/-- What the code asks of the host window, in the order it asks. -/
inductive Event where
  /-- the call `decorationType.dispose()` -/
  | dispose (handle : Nat)
  /-- the call `createTextEditorDecorationType({ backgroundColor: color, ... })` and the handle
  it answered -/
  | createTextEditorDecorationType (handle : Nat) (color : JValue)
  | showInformationMessage (message : JSString)
  | showErrorMessage (message : JSString)

/-- The host window: the number of the next render-style handle it hands out, and the calls
received so far. -/
structure Host where
  nextHandle : Nat
  log : List Event

/-- What the surroundings answer during one `loadConfiguration` call: the setting
`wordHighlighter.configPath` (`none` when undefined), `fs.readFileSync(path, 'utf8')` and
`JSON.parse`, the last two answering a value or the message of the error they throw. -/
structure Env where
  configPath : Option JSString
  readFileSync : JSString → Except JSString JSString
  jsonParse : JSString → Except JSString JValue

/-- The call `vscode.window.createTextEditorDecorationType(options)`: the host answers a
fresh handle. It does not inspect the colour, whatever its type. -/
def Host.createTextEditorDecorationType (host : Host) (color : JValue) : Nat × Host :=
  (host.nextHandle,
    { nextHandle := host.nextHandle + 1,
      log := host.log ++ [Event.createTextEditorDecorationType host.nextHandle color] })

/-- Append one call to the log of the host. -/
def Host.record (host : Host) (e : Event) : Host :=
  { host with log := host.log ++ [e] }

/-- The function `disposeDecorationTypes()`: dispose every handle of `decorationTypes`, in
list order, then `decorationTypes = []`. -/
def disposeDecorationTypes (st : State) (host : Host) : State × Host :=
  ({ st with decorationTypes := [] },
    st.decorationTypes.foldl (fun h entry => h.record (Event.dispose entry.decorationType)) host)

/-- The function `deactivate()`: it only calls `disposeDecorationTypes()`. -/
def deactivate (st : State) (host : Host) : State × Host :=
  disposeDecorationTypes st host

/-- The property names `"k"`, `"k+1"`, ... paired with the elements of a list. -/
def indexedFrom {α : Type} : Nat → List α → List (JSString × α)
  | _, [] => []
  | k, x :: xs => (utf16 (toString k), x) :: indexedFrom (k + 1) xs

/-- The built-in `Object.entries(value)`: a `TypeError` (`none`) for `null`; no entry for a
boolean or a number; index and character for a string; index and element for an array; the
own properties for an object. -/
def objectEntries : JValue → Option (List (JSString × JValue))
  | JValue.null => none
  | JValue.bool _ => some []
  | JValue.number _ => some []
  | JValue.string s => some (indexedFrom 0 (s.map fun c => JValue.string [c]))
  | JValue.array elements => some (indexedFrom 0 elements)
  | JValue.object entries => some entries

/-- The message of the `TypeError` that `Object.entries(null)` throws. -/
def typeErrorMessage : JSString := utf16 "Cannot convert undefined or null to object"

/-- The text of the notification about an unset path. -/
def pathNotSetMessage : JSString := utf16 "Word Highlighter: Configuration path not set"

/-- The template literal of the success notification. -/
def loadedMessage (count : Nat) : JSString :=
  utf16 "Word Highlighter: Loaded " ++ utf16 (toString count) ++
    utf16 " word(s) from configuration"

/-- The template literal of the error notification. -/
def errorMessage (message : JSString) : JSString :=
  utf16 "Word Highlighter: Error loading configuration - " ++ message

/-- The callback of `Object.entries(wordColorMap).forEach(([word, color]) => { ... })`: create
a decoration type for the colour and push `{ word, decorationType }`. -/
def createDecoration (acc : State × Host) (entry : JSString × JValue) : State × Host :=
  let created := acc.2.createTextEditorDecorationType entry.2
  ({ acc.1 with
      decorationTypes := acc.1.decorationTypes ++ [{ word := entry.1, decorationType := created.1 }] },
    created.2)

/-- The function `loadConfiguration()`.  The body of the `try` runs in source order:
dispose, read the setting, read the file, parse and assign `wordColorMap`, create the
decoration types, notify.  An exception leaves the `try` at the statement that threw, and
the `catch` shows the error message. -/
def loadConfiguration (env : Env) (st : State) (host : Host) : State × Host :=
  let disposed := disposeDecorationTypes st host
  let st := disposed.1
  let host := disposed.2
  match env.configPath with
  | none => (st, host.record (Event.showInformationMessage pathNotSetMessage))
  | some configPath =>
    if configPath = [] then (st, host.record (Event.showInformationMessage pathNotSetMessage))
    else
      match env.readFileSync configPath with
      | Except.error message => (st, host.record (Event.showErrorMessage (errorMessage message)))
      | Except.ok configContent =>
        match env.jsonParse configContent with
        | Except.error message =>
          (st, host.record (Event.showErrorMessage (errorMessage message)))
        | Except.ok value =>
          let st := { st with wordColorMap := value }
          match objectEntries value with
          | none => (st, host.record (Event.showErrorMessage (errorMessage typeErrorMessage)))
          | some entries =>
            let loaded := entries.foldl createDecoration (st, host)
            (loaded.1,
              loaded.2.record (Event.showInformationMessage (loadedMessage entries.length)))

/-- The handles the host has been asked to create, in order. -/
def createdHandles : List Event → List Nat
  | [] => []
  | Event.createTextEditorDecorationType h _ :: rest => h :: createdHandles rest
  | _ :: rest => createdHandles rest

/-- The handles the host has been asked to dispose, in order. -/
def disposedHandles : List Event → List Nat
  | [] => []
  | Event.dispose h :: rest => h :: disposedHandles rest
  | _ :: rest => disposedHandles rest

/-- The handles created and not yet disposed. -/
def liveHandles (log : List Event) : List Nat :=
  (createdHandles log).filter fun h => decide (h ∉ disposedHandles log)

/-! ## The scan, stated as a relation -/

/-- A whole-token match of `word` at offset `i`, as the compiled pattern decides it: the
word boundary assertion holds at `i`, the text reads `word` from `i`, and the assertion
holds again right after. -/
def MatchAt (text word : JSString) (i : Nat) : Prop :=
  wordBoundaryAt text i = true ∧ slice text i (i + word.length) = word ∧
    wordBoundaryAt text (i + word.length) = true

instance (text word : JSString) (i : Nat) : Decidable (MatchAt text word i) := by
  unfold MatchAt; exact inferInstance

/-- The leftmost non-overlapping selection of match offsets, from scan position `pos`:
each selected offset is the first match at or after the scan position, and the scan
resumes at the end of that match. -/
def Greedy (text word : JSString) : Nat → List Nat → Prop
  | pos, [] => ∀ j, pos ≤ j → ¬ MatchAt text word j
  | pos, i :: rest =>
    pos ≤ i ∧ MatchAt text word i ∧ (∀ j, pos ≤ j → j < i → ¬ MatchAt text word j) ∧
      Greedy text word (i + word.length) rest

/-- The ranges pushed for a list of match offsets. -/
def rangesOf {P : Type} (document : TextDocument P) (word : JSString) (starts : List Nat) :
    List (Range P) :=
  starts.map fun i => (document.positionAt i, document.positionAt (i + word.length))

/-- The entries pushed for `entries` when the host hands out the handles `k`, `k + 1`, ... -/
def freshEntries : Nat → List (JSString × JValue) → List DecorationEntry
  | _, [] => []
  | k, entry :: rest => { word := entry.1, decorationType := k } :: freshEntries (k + 1) rest

/-- The creation calls for `entries` when the host hands out the handles `k`, `k + 1`, ... -/
def createEvents : Nat → List (JSString × JValue) → List Event
  | _, [] => []
  | k, entry :: rest => Event.createTextEditorDecorationType k entry.2 :: createEvents (k + 1) rest

/-- The disposal calls for the handles of a `decorationTypes` list, in list order. -/
def disposeEvents (decorationTypes : List DecorationEntry) : List Event :=
  decorationTypes.map fun entry => Event.dispose entry.decorationType

/-- The module state and the host agree: the handles held in `decorationTypes` are exactly
the handles created and not yet disposed, in creation order; every handle handed out is
below the next one; only created handles were disposed; no handle was created twice and
none disposed twice. -/
def Consistent (st : State) (host : Host) : Prop :=
  st.decorationTypes.map (fun entry => entry.decorationType) = liveHandles host.log ∧
  (∀ h ∈ createdHandles host.log, h < host.nextHandle) ∧
  (∀ h ∈ disposedHandles host.log, h ∈ createdHandles host.log) ∧
  (createdHandles host.log).Nodup ∧
  (disposedHandles host.log).Nodup

instance (st : State) (host : Host) : Decidable (Consistent st host) := by
  unfold Consistent; exact inferInstance

/-- The JSON object of a string-to-string mapping. -/
def JValue.ofMap (m : List (JSString × JSString)) : JValue :=
  JValue.object (m.map fun kv => (kv.1, JValue.string kv.2))

/-! ## The notions of the specification, and sample surroundings -/

/-- The word boundary of the specification's glossary: the start of the text, the end of the
text, or a position where the character class changes. -/
def SpecBoundary (text : JSString) (i : Nat) : Prop :=
  i = 0 ∨ i = text.length ∨ wordCharBefore text i ≠ wordCharAt text i

instance (text : JSString) (i : Nat) : Decidable (SpecBoundary text i) := by
  unfold SpecBoundary; exact inferInstance

/-- The character at offset `k`, if there is one, is not a word character. -/
def nonWordAt (text : JSString) (k : Nat) : Bool :=
  match text[k]? with
  | none => true
  | some c => !isWordChar c

/-- A whole-token occurrence of `word` at offset `i`, in the words of the specification for
words made of word characters: the text reads `word` from `i`, the character before `i`
(if any) is not a word character, and neither is the character at `i + word.length` (if
any). -/
def WholeTokenAt (text word : JSString) (i : Nat) : Prop :=
  slice text i (i + word.length) = word ∧
    (i = 0 ∨ nonWordAt text (i - 1) = true) ∧
    nonWordAt text (i + word.length) = true

instance (text word : JSString) (i : Nat) : Decidable (WholeTokenAt text word i) := by
  unfold WholeTokenAt; exact inferInstance

/-- The sample text of the specification, `// TODO: fix`, a line break, `func TODOList(){}`. -/
def todoText : JSString := utf16 "// TODO: fix\nfunc TODOList()\x7b\x7d"

/-- Surroundings in which the configured file holds `{"TODO":"#ffff00"}`. -/
def todoEnv : Env :=
  { configPath := some (utf16 "/home/u/words.json")
    readFileSync := fun _ => Except.ok (utf16 "\x7b\"TODO\":\"#ffff00\"\x7d")
    jsonParse := fun _ => Except.ok (JValue.ofMap [(utf16 "TODO", utf16 "#ffff00")]) }

/-- Surroundings in which the configured file cannot be read. -/
def missingFileEnv : Env :=
  { configPath := some (utf16 "/home/u/words.json")
    readFileSync := fun _ => Except.error (utf16 "ENOENT: no such file or directory")
    jsonParse := todoEnv.jsonParse }

/-- Surroundings in which the configured file holds the JSON text `5`. -/
def numberEnv : Env :=
  { configPath := some (utf16 "/home/u/words.json")
    readFileSync := fun _ => Except.ok (utf16 "5")
    jsonParse := fun _ => Except.ok (JValue.number 5) }

/-- Surroundings in which the configured file holds `{"":"#fff"}`: the empty key. -/
def emptyKeyEnv : Env :=
  { configPath := some (utf16 "/home/u/words.json")
    readFileSync := fun _ => Except.ok (utf16 "\x7b\"\":\"#fff\"\x7d")
    jsonParse := fun _ => Except.ok (JValue.ofMap [([], utf16 "#fff")]) }

/-- The host window before any call. -/
def Host.initial : Host := { nextHandle := 0, log := [] }

/-- The value a call returned, if it returned. -/
def Outcome.toOption {α : Type} : Outcome α → Option α
  | Outcome.returned v => some v
  | _ => none

/-- The module state and the host after the first load of `{"TODO":"#ffff00"}`. -/
def todoLoaded : State × Host := loadConfiguration todoEnv State.initial Host.initial

/-- The module state and the host after the first load of `{"":"#fff"}`. -/
def emptyKeyLoaded : State × Host := loadConfiguration emptyKeyEnv State.initial Host.initial

/-! ## The pattern source and the matcher -/

theorem isSyntaxCharacter_eq_isEscaped (c : Nat) : isSyntaxCharacter c = isEscaped c := by
  rw [Bool.eq_iff_iff]
  simp only [isSyntaxCharacter, isEscaped, Bool.or_eq_true, beq_iff_eq]
  constructor <;> intro h <;> omega

theorem escapeRegExp_append_ne_nil (w : JSString) : escapeRegExp w ++ [92, 98] ≠ [] := by
  simp

theorem parsePattern_escapeRegExp (w : JSString) :
    parsePattern (escapeRegExp w ++ [92, 98]) = some (w.map Term.char ++ [Term.wordBoundary]) := by
  induction w with
  | nil => rfl
  | cons c w ih =>
    by_cases hc : isEscaped c = true
    · have h98 : c ≠ 98 := by
        intro h; subst h; revert hc; decide
      simp [escapeRegExp, hc, parsePattern, h98, isSyntaxCharacter_eq_isEscaped, ih]
    · have h92 : c ≠ 92 := by
        intro h; subst h; exact hc (by decide)
      obtain ⟨d, rest, hd⟩ : ∃ d rest, escapeRegExp w ++ [92, 98] = d :: rest := by
        cases h : escapeRegExp w ++ [92, 98] with
        | nil => exact absurd h (escapeRegExp_append_ne_nil w)
        | cons d rest => exact ⟨d, rest, rfl⟩
      have hc' : isEscaped c = false := by simpa using hc
      simp only [escapeRegExp, hc, List.cons_append, Bool.false_eq_true, if_false]
      rw [hd, parsePattern]
      simp only [h92, if_false, isSyntaxCharacter_eq_isEscaped, hc', Bool.false_eq_true]
      rw [← hd, ih]
      simp

theorem parsePattern_patternSource (w : JSString) :
    parsePattern (patternSource w) =
      some (Term.wordBoundary :: (w.map Term.char ++ [Term.wordBoundary])) := by
  have h : patternSource w = 92 :: 98 :: (escapeRegExp w ++ [92, 98]) := by
    simp [patternSource]
  rw [h, parsePattern]
  simp [parsePattern_escapeRegExp]

theorem slice_add (text : JSString) (i n : Nat) : slice text i (i + n) = (text.drop i).take n := by
  simp [slice]

theorem take_drop_succ_eq_cons (text : JSString) (i n c : Nat) (w : JSString) :
    (text.drop i).take (n + 1) = c :: w ↔
      text[i]? = some c ∧ (text.drop (i + 1)).take n = w := by
  induction text generalizing i with
  | nil => simp
  | cons a t ih =>
    cases i with
    | zero => simp
    | succ i => simpa using ih i

theorem matchTerms_chars (text w : JSString) (ts : List Term) (i : Nat) :
    matchTerms text (w.map Term.char ++ ts) i =
      if (text.drop i).take w.length = w then matchTerms text ts (i + w.length) else none := by
  induction w generalizing i with
  | nil => simp
  | cons c w ih =>
    simp only [List.map_cons, List.cons_append, matchTerms, List.length_cons,
      take_drop_succ_eq_cons]
    by_cases h1 : text[i]? = some c
    · simp only [h1, if_true, true_and]
      have := ih (i + 1)
      rw [show i + 1 + w.length = i + (w.length + 1) by omega] at this
      exact this
    · simp [h1]

theorem matchTerms_compiled (text w : JSString) (i : Nat) :
    matchTerms text (Term.wordBoundary :: (w.map Term.char ++ [Term.wordBoundary])) i =
      if MatchAt text w i then some (i + w.length) else none := by
  simp only [matchTerms, matchTerms_chars, MatchAt, slice_add]
  by_cases h1 : wordBoundaryAt text i = true
  · by_cases h2 : (text.drop i).take w.length = w
    · by_cases h3 : wordBoundaryAt text (i + w.length) = true
      · simp [h1, h2, h3]
      · simp [h1, h2, h3]
    · simp [h1, h2]
  · simp [h1]

theorem searchFrom_eq_none {terms : List Term} {text : JSString} {n i : Nat}
    (h : searchFrom terms text n i = none) :
    ∀ j, i ≤ j → j < i + n → matchTerms text terms j = none := by
  induction n generalizing i with
  | zero => intro j h1 h2; omega
  | succ n ih =>
    intro j h1 h2
    rw [searchFrom] at h
    cases hm : matchTerms text terms i with
    | some e => simp [hm] at h
    | none =>
      simp only [hm] at h
      by_cases hj : j = i
      · rw [hj]; exact hm
      · exact ih h j (by omega) (by omega)

theorem searchFrom_eq_some {terms : List Term} {text : JSString} {n i index e : Nat}
    (h : searchFrom terms text n i = some (index, e)) :
    i ≤ index ∧ index < i + n ∧ matchTerms text terms index = some e ∧
      ∀ j, i ≤ j → j < index → matchTerms text terms j = none := by
  induction n generalizing i with
  | zero => simp [searchFrom] at h
  | succ n ih =>
    rw [searchFrom] at h
    cases hm : matchTerms text terms i with
    | some e' =>
      simp only [hm, Option.some.injEq, Prod.mk.injEq] at h
      obtain ⟨h1, h2⟩ := h
      subst h1; subst h2
      exact ⟨le_refl _, by omega, hm, fun j h1 h2 => by omega⟩
    | none =>
      simp only [hm] at h
      obtain ⟨h1, h2, h3, h4⟩ := ih h
      refine ⟨by omega, by omega, h3, fun j hj1 hj2 => ?_⟩
      by_cases hj : j = i
      · rw [hj]; exact hm
      · exact h4 j (by omega) hj2

theorem wordCharAt_of_length_le {text : JSString} {e : Nat} (h : text.length ≤ e) :
    wordCharAt text e = false := by
  simp [wordCharAt, List.getElem?_eq_none h]

theorem wordBoundaryAt_of_length_lt {text : JSString} {e : Nat} (h : text.length < e) :
    wordBoundaryAt text e = false := by
  cases e with
  | zero => omega
  | succ k =>
    simp [wordBoundaryAt, wordCharBefore, wordCharAt_of_length_le (show text.length ≤ k by omega),
      wordCharAt_of_length_le (show text.length ≤ k + 1 by omega)]

theorem MatchAt.le_length {text w : JSString} {i : Nat} (h : MatchAt text w i) :
    i ≤ text.length := by
  by_contra hlt
  have := @wordBoundaryAt_of_length_lt text i (by omega)
  rw [h.1] at this
  exact absurd this (by decide)

theorem MatchAt.end_le_length {text w : JSString} {i : Nat} (h : MatchAt text w i) :
    i + w.length ≤ text.length := by
  have h2 := congrArg List.length h.2.1
  rw [slice_add, List.length_take, List.length_drop] at h2
  have := h.le_length
  omega

/-! ## The scan loop -/

theorem exec_compiled_none {text w : JSString} {pos : Nat} {re : RegExp}
    (h : RegExp.exec
      { terms := Term.wordBoundary :: (w.map Term.char ++ [Term.wordBoundary]),
        lastIndex := pos } text = (none, re)) :
    ∀ j, pos ≤ j → ¬ MatchAt text w j := by
  intro j hj hm
  simp only [RegExp.exec] at h
  split at h
  · rename_i hs
    have := searchFrom_eq_none hs j hj (by have := hm.le_length; omega)
    rw [matchTerms_compiled, if_pos hm] at this
    exact absurd this (by simp)
  · simp at h

theorem exec_compiled_some {text w : JSString} {pos index : Nat} {re : RegExp}
    (h : RegExp.exec
      { terms := Term.wordBoundary :: (w.map Term.char ++ [Term.wordBoundary]),
        lastIndex := pos } text = (some index, re)) :
    re = { terms := Term.wordBoundary :: (w.map Term.char ++ [Term.wordBoundary]),
           lastIndex := index + w.length } ∧
      pos ≤ index ∧ MatchAt text w index ∧ ∀ j, pos ≤ j → j < index → ¬ MatchAt text w j := by
  simp only [RegExp.exec] at h
  split at h
  · simp at h
  · rename_i idx e hs
    simp only [Prod.mk.injEq, Option.some.injEq] at h
    obtain ⟨h1, h2⟩ := h
    subst h1
    obtain ⟨g1, _, g3, g4⟩ := searchFrom_eq_some hs
    rw [matchTerms_compiled] at g3
    by_cases hm : MatchAt text w idx
    · rw [if_pos hm] at g3
      simp only [Option.some.injEq] at g3
      refine ⟨?_, g1, hm, fun j hj1 hj2 hmj => ?_⟩
      · rw [← h2, ← g3]
      · have := g4 j hj1 hj2
        rw [matchTerms_compiled, if_pos hmj] at this
        exact absurd this (by simp)
    · rw [if_neg hm] at g3
      exact absurd g3 (by simp)

theorem scanLoop_greedy {P : Type} (document : TextDocument P) (text w : JSString)
    (hw : w ≠ []) :
    ∀ (fuel pos : Nat) (ranges : List (Range P)), text.length - pos < fuel →
      ∃ starts, scanLoop document text w fuel
          { terms := Term.wordBoundary :: (w.map Term.char ++ [Term.wordBoundary]),
            lastIndex := pos } ranges
          = Outcome.returned (ranges ++ rangesOf document w starts) ∧
        Greedy text w pos starts := by
  have hlen : 0 < w.length := List.length_pos.mpr hw
  intro fuel
  induction fuel with
  | zero => intro pos ranges h; omega
  | succ fuel ih =>
    intro pos ranges hfuel
    rw [scanLoop]
    cases hx : RegExp.exec
        { terms := Term.wordBoundary :: (w.map Term.char ++ [Term.wordBoundary]),
          lastIndex := pos } text with
    | mk r re =>
      cases r with
      | none =>
        exact ⟨[], by simp [rangesOf], exec_compiled_none hx⟩
      | some index =>
        obtain ⟨hre, h1, h2, h3⟩ := exec_compiled_some hx
        subst hre
        have hend := h2.end_le_length
        obtain ⟨starts, hs, hg⟩ := ih (index + w.length)
          (ranges ++ [(document.positionAt index, document.positionAt (index + w.length))])
          (by omega)
        refine ⟨index :: starts, ?_, h1, h2, h3, hg⟩
        simp only [hs, rangesOf, List.map_cons, List.append_assoc, List.singleton_append]

theorem findAllOccurrences_greedy {P : Type} (document : TextDocument P) (text w : JSString)
    (hw : w ≠ []) (fuel : Nat) (hfuel : text.length < fuel) :
    ∃ starts, findAllOccurrences fuel text w document
        = Outcome.returned (rangesOf document w starts) ∧ Greedy text w 0 starts := by
  obtain ⟨starts, hs, hg⟩ := scanLoop_greedy document text w hw fuel 0 [] (by omega)
  refine ⟨starts, ?_, hg⟩
  simp only [findAllOccurrences, RegExp.new, parsePattern_patternSource, Option.map_some']
  simpa using hs

theorem Greedy.mem {text w : JSString} :
    ∀ {pos : Nat} {starts : List Nat}, Greedy text w pos starts →
      ∀ i ∈ starts, pos ≤ i ∧ MatchAt text w i := by
  intro pos starts
  induction starts generalizing pos with
  | nil => intro _ i hi; simp at hi
  | cons a rest ih =>
    intro hg i hi
    obtain ⟨h1, h2, _, h4⟩ := hg
    rcases List.mem_cons.mp hi with rfl | hi
    · exact ⟨h1, h2⟩
    · obtain ⟨g1, g2⟩ := ih h4 i hi
      exact ⟨by omega, g2⟩

theorem Greedy.pairwise {text w : JSString} :
    ∀ {pos : Nat} {starts : List Nat}, Greedy text w pos starts →
      starts.Pairwise (fun a b => a + w.length ≤ b) := by
  intro pos starts
  induction starts generalizing pos with
  | nil => intro _; exact List.Pairwise.nil
  | cons a rest ih =>
    intro hg
    obtain ⟨_, _, _, h4⟩ := hg
    exact List.Pairwise.cons (fun b hb => (h4.mem b hb).1) (ih h4)

theorem Greedy.mem_iff {text w : JSString} :
    ∀ {pos : Nat} {starts : List Nat}, Greedy text w pos starts →
      ∀ i, i ∈ starts ↔
        (pos ≤ i ∧ MatchAt text w i ∧ ∀ j ∈ starts, ¬ (j < i ∧ i < j + w.length)) := by
  intro pos starts
  induction starts generalizing pos with
  | nil =>
    intro hg i
    simp only [List.not_mem_nil, false_iff]
    intro h
    exact hg i h.1 h.2.1
  | cons a rest ih =>
    intro hg i
    obtain ⟨h1, h2, h3, h4⟩ := hg
    have hrest := ih h4 i
    constructor
    · intro hi
      rcases List.mem_cons.mp hi with rfl | hi
      · refine ⟨h1, h2, fun j hj => ?_⟩
        rcases List.mem_cons.mp hj with rfl | hj
        · omega
        · have := (h4.mem j hj).1
          omega
      · obtain ⟨g1, g2, g3⟩ := hrest.mp hi
        refine ⟨by omega, g2, fun j hj => ?_⟩
        rcases List.mem_cons.mp hj with rfl | hj
        · omega
        · exact g3 j hj
    · rintro ⟨g1, g2, g3⟩
      by_cases hlt : i < a
      · exact absurd g2 (h3 i g1 hlt)
      · by_cases heq : i = a
        · rw [heq]; exact List.mem_cons_self _ _
        · have := g3 a (List.mem_cons_self _ _)
          refine List.mem_cons_of_mem _ (hrest.mpr ⟨by omega, g2, fun j hj => ?_⟩)
          exact g3 j (List.mem_cons_of_mem _ hj)

theorem getElem?_of_take_drop {text w : JSString} {i : Nat}
    (h : (text.drop i).take w.length = w) (k : Nat) (hk : k < w.length) :
    text[i + k]? = w[k]? := by
  have h1 : ((text.drop i).take w.length)[k]? = w[k]? := by rw [h]
  rw [List.getElem?_take_of_lt hk, List.getElem?_drop] at h1
  exact h1

theorem wordCharAt_of_occurrence {text w : JSString} {i : Nat}
    (hword : ∀ c ∈ w, isWordChar c = true)
    (h : (text.drop i).take w.length = w) (k : Nat) (hk : k < w.length) :
    wordCharAt text (i + k) = true := by
  have h1 := getElem?_of_take_drop h k hk
  rw [List.getElem?_eq_getElem hk] at h1
  simp only [wordCharAt, h1]
  exact hword _ (List.getElem_mem hk)

/-- Inside an occurrence of a word made of word characters there is no word boundary. -/
theorem not_wordBoundaryAt_inside {text w : JSString} {j i : Nat}
    (hword : ∀ c ∈ w, isWordChar c = true)
    (h : (text.drop j).take w.length = w) (h1 : j < i) (h2 : i < j + w.length) :
    wordBoundaryAt text i = false := by
  obtain ⟨k, rfl⟩ : ∃ k, i = j + (k + 1) := ⟨i - j - 1, by omega⟩
  have a := wordCharAt_of_occurrence hword h k (by omega)
  have b := wordCharAt_of_occurrence hword h (k + 1) (by omega)
  have hb : wordCharBefore text (j + (k + 1)) = true := a
  simp only [wordBoundaryAt, hb, b]
  rfl

theorem MatchAt.no_overlap {text w : JSString} {i j : Nat}
    (hword : ∀ c ∈ w, isWordChar c = true)
    (hj : MatchAt text w j) (hi : MatchAt text w i) (h1 : j < i) : j + w.length ≤ i := by
  by_contra hlt
  have := not_wordBoundaryAt_inside hword (by simpa [slice_add] using hj.2.1) h1 (by omega)
  rw [hi.1] at this
  exact absurd this (by decide)

theorem wordCharAt_eq_false_iff (text : JSString) (e : Nat) :
    wordCharAt text e = false ↔ nonWordAt text e = true := by
  simp only [wordCharAt, nonWordAt]
  cases hc : text[e]? with
  | none => simp
  | some c => simp

theorem wordCharBefore_eq_false_iff (text : JSString) (i : Nat) :
    wordCharBefore text i = false ↔ (i = 0 ∨ nonWordAt text (i - 1) = true) := by
  cases i with
  | zero => simp [wordCharBefore]
  | succ k => simp [wordCharBefore, wordCharAt_eq_false_iff]

/-- For a non-empty word made of word characters a match is an occurrence with no word
character right before it and none right after it. -/
theorem matchAt_iff_of_wordlike {text w : JSString} (hw : w ≠ [])
    (hword : ∀ c ∈ w, isWordChar c = true) (i : Nat) :
    MatchAt text w i ↔
      slice text i (i + w.length) = w ∧ wordCharBefore text i = false ∧
        wordCharAt text (i + w.length) = false := by
  have hlen : 0 < w.length := List.length_pos.mpr hw
  constructor
  · rintro ⟨h1, h2, h3⟩
    have hocc : (text.drop i).take w.length = w := by simpa [slice_add] using h2
    have a := wordCharAt_of_occurrence hword hocc 0 hlen
    have b := wordCharAt_of_occurrence hword hocc (w.length - 1) (by omega)
    refine ⟨h2, ?_, ?_⟩
    · simp only [wordBoundaryAt, Nat.add_zero] at h1 a
      rw [a] at h1
      cases hb : wordCharBefore text i with
      | false => rfl
      | true => rw [hb] at h1; exact absurd h1 (by decide)
    · have hb : wordCharBefore text (i + w.length) = true := by
        rw [show i + w.length = (i + (w.length - 1)) + 1 by omega]
        exact b
      simp only [wordBoundaryAt, hb] at h3
      cases hc : wordCharAt text (i + w.length) with
      | false => rfl
      | true => rw [hc] at h3; exact absurd h3 (by decide)
  · rintro ⟨h2, h1, h3⟩
    have hocc : (text.drop i).take w.length = w := by simpa [slice_add] using h2
    have a := wordCharAt_of_occurrence hword hocc 0 hlen
    have b := wordCharAt_of_occurrence hword hocc (w.length - 1) (by omega)
    have hb : wordCharBefore text (i + w.length) = true := by
      rw [show i + w.length = (i + (w.length - 1)) + 1 by omega]
      exact b
    simp only [Nat.add_zero] at a
    refine ⟨?_, h2, ?_⟩
    · simp [wordBoundaryAt, h1, a]
    · simp [wordBoundaryAt, h3, hb]

/-- Whatever the word, every range the loop has pushed when it returns is a match. -/
theorem scanLoop_sound {P : Type} (document : TextDocument P) (text w : JSString) :
    ∀ (fuel pos : Nat) (ranges rs : List (Range P)),
      scanLoop document text w fuel
          { terms := Term.wordBoundary :: (w.map Term.char ++ [Term.wordBoundary]),
            lastIndex := pos } ranges = Outcome.returned rs →
      ∃ starts, rs = ranges ++ rangesOf document w starts ∧ ∀ i ∈ starts, MatchAt text w i := by
  intro fuel
  induction fuel with
  | zero => intro pos ranges rs h; simp [scanLoop] at h
  | succ fuel ih =>
    intro pos ranges rs h
    rw [scanLoop] at h
    cases hx : RegExp.exec
        { terms := Term.wordBoundary :: (w.map Term.char ++ [Term.wordBoundary]),
          lastIndex := pos } text with
    | mk r re =>
      rw [hx] at h
      cases r with
      | none =>
        simp only [Outcome.returned.injEq] at h
        exact ⟨[], by simp [rangesOf, h], by simp⟩
      | some index =>
        obtain ⟨hre, _, h2, _⟩ := exec_compiled_some hx
        subst hre
        obtain ⟨starts, hs, hm⟩ := ih _ _ _ h
        refine ⟨index :: starts, ?_, ?_⟩
        · simp only [hs, rangesOf, List.map_cons, List.append_assoc, List.singleton_append]
        · intro i hi
          rcases List.mem_cons.mp hi with rfl | hi
          · exact h2
          · exact hm i hi

theorem findAllOccurrences_sound {P : Type} (document : TextDocument P) (text w : JSString)
    (fuel : Nat) (rs : List (Range P))
    (h : findAllOccurrences fuel text w document = Outcome.returned rs) :
    ∃ starts, rs = rangesOf document w starts ∧ ∀ i ∈ starts, MatchAt text w i := by
  simp only [findAllOccurrences, RegExp.new, parsePattern_patternSource, Option.map_some'] at h
  obtain ⟨starts, hs, hm⟩ := scanLoop_sound document text w fuel 0 [] rs h
  exact ⟨starts, by simpa using hs, hm⟩

theorem matchAt_nil_iff (text : JSString) (i : Nat) :
    MatchAt text [] i ↔ wordBoundaryAt text i = true := by
  simp [MatchAt, slice]

/-- With the empty word, a scan that stands on a word boundary stays there. -/
theorem scanLoop_nil_stuck {P : Type} (document : TextDocument P) (text : JSString) (pos : Nat)
    (hpos : wordBoundaryAt text pos = true) :
    ∀ (fuel : Nat) (ranges : List (Range P)),
      scanLoop document text [] fuel
        { terms := [Term.wordBoundary, Term.wordBoundary], lastIndex := pos } ranges
        = Outcome.outOfFuel := by
  have hm : MatchAt text [] pos := (matchAt_nil_iff text pos).mpr hpos
  intro fuel
  induction fuel with
  | zero => intro ranges; rfl
  | succ fuel ih =>
    intro ranges
    rw [scanLoop]
    cases hx : RegExp.exec
        { terms := [Term.wordBoundary, Term.wordBoundary], lastIndex := pos } text with
    | mk r re =>
      cases r with
      | none => exact absurd hm (exec_compiled_none (w := []) hx pos (le_refl _))
      | some index =>
        obtain ⟨hre, h1, _, h3⟩ := exec_compiled_some (w := []) hx
        have hidx : index = pos := by
          by_contra hne
          exact h3 pos (le_refl _) (by omega) hm
        subst hre; subst hidx
        exact ih _

/-- With the empty word, the scan of a text that has a word boundary never ends. -/
theorem findAllOccurrences_nil_outOfFuel {P : Type} (document : TextDocument P)
    (text : JSString) (j : Nat) (hj : wordBoundaryAt text j = true) (fuel : Nat) :
    findAllOccurrences fuel text [] document = Outcome.outOfFuel := by
  have hm : MatchAt text [] j := (matchAt_nil_iff text j).mpr hj
  simp only [findAllOccurrences, RegExp.new, parsePattern_patternSource, Option.map_some',
    List.map_nil, List.nil_append]
  cases fuel with
  | zero => rfl
  | succ fuel =>
    rw [scanLoop]
    cases hx : RegExp.exec
        { terms := [Term.wordBoundary, Term.wordBoundary], lastIndex := 0 } text with
    | mk r re =>
      cases r with
      | none => exact absurd hm (exec_compiled_none (w := []) hx j (Nat.zero_le _))
      | some index =>
        obtain ⟨hre, _, h2, _⟩ := exec_compiled_some (w := []) hx
        subst hre
        exact scanLoop_nil_stuck document text _ ((matchAt_nil_iff text _).mp h2) fuel _

/-! ## Loading and the handles of the host -/

theorem disposeDecorationTypes_eq (st : State) (host : Host) :
    disposeDecorationTypes st host =
      ({ decorationTypes := [], wordColorMap := st.wordColorMap },
        { nextHandle := host.nextHandle, log := host.log ++ disposeEvents st.decorationTypes }) := by
  have key : ∀ (l : List DecorationEntry) (h : Host),
      l.foldl (fun h entry => h.record (Event.dispose entry.decorationType)) h =
        { nextHandle := h.nextHandle, log := h.log ++ disposeEvents l } := by
    intro l
    induction l with
    | nil => intro h; simp [disposeEvents]
    | cons e l ih =>
      intro h
      rw [List.foldl_cons, ih]
      simp [Host.record, disposeEvents]
  simp [disposeDecorationTypes, key]

theorem foldl_createDecoration (entries : List (JSString × JValue)) (st : State) (host : Host) :
    entries.foldl createDecoration (st, host) =
      ({ decorationTypes := st.decorationTypes ++ freshEntries host.nextHandle entries,
         wordColorMap := st.wordColorMap },
        { nextHandle := host.nextHandle + entries.length,
          log := host.log ++ createEvents host.nextHandle entries }) := by
  induction entries generalizing st host with
  | nil => simp [freshEntries, createEvents]
  | cons e rest ih =>
    rw [List.foldl_cons]
    simp only [createDecoration, Host.createTextEditorDecorationType]
    rw [ih]
    simp [freshEntries, createEvents, Nat.add_assoc, Nat.add_comm 1]

/-- What a load does when the path is set, the file is read and its content parses to a value
that has entries. -/
theorem loadConfiguration_of_entries {env : Env} {path content : JSString} {value : JValue}
    {entries : List (JSString × JValue)} (st : State) (host : Host)
    (hpath : env.configPath = some path) (hne : path ≠ [])
    (hread : env.readFileSync path = Except.ok content)
    (hparse : env.jsonParse content = Except.ok value)
    (hentries : objectEntries value = some entries) :
    loadConfiguration env st host =
      ({ decorationTypes := freshEntries host.nextHandle entries, wordColorMap := value },
        { nextHandle := host.nextHandle + entries.length,
          log := host.log ++ disposeEvents st.decorationTypes ++
            createEvents host.nextHandle entries ++
            [Event.showInformationMessage (loadedMessage entries.length)] }) := by
  simp only [loadConfiguration, hpath, hne, if_false, hread, hparse, hentries,
    disposeDecorationTypes_eq, foldl_createDecoration, Host.record, List.nil_append]

/-- What a load does when the path is set and the read or the parse throws. -/
theorem loadConfiguration_of_failure {env : Env} {path message : JSString} (st : State) (host : Host)
    (hpath : env.configPath = some path) (hne : path ≠ [])
    (hfail : env.readFileSync path = Except.error message ∨
      ∃ content, env.readFileSync path = Except.ok content ∧
        env.jsonParse content = Except.error message) :
    loadConfiguration env st host =
      ({ decorationTypes := [], wordColorMap := st.wordColorMap },
        { nextHandle := host.nextHandle,
          log := host.log ++ disposeEvents st.decorationTypes ++
            [Event.showErrorMessage (errorMessage message)] }) := by
  rcases hfail with hread | ⟨content, hread, hparse⟩
  · simp only [loadConfiguration, hpath, hne, if_false, hread, disposeDecorationTypes_eq,
      Host.record]
  · simp only [loadConfiguration, hpath, hne, if_false, hread, hparse,
      disposeDecorationTypes_eq, Host.record]

theorem createdHandles_append (a b : List Event) :
    createdHandles (a ++ b) = createdHandles a ++ createdHandles b := by
  induction a with
  | nil => rfl
  | cons e a ih => cases e <;> simp [createdHandles, ih]

theorem disposedHandles_append (a b : List Event) :
    disposedHandles (a ++ b) = disposedHandles a ++ disposedHandles b := by
  induction a with
  | nil => rfl
  | cons e a ih => cases e <;> simp [disposedHandles, ih]

theorem createdHandles_disposeEvents (l : List DecorationEntry) :
    createdHandles (disposeEvents l) = [] := by
  induction l with
  | nil => rfl
  | cons e l ih => simpa [disposeEvents, createdHandles] using ih

theorem disposedHandles_disposeEvents (l : List DecorationEntry) :
    disposedHandles (disposeEvents l) = l.map fun entry => entry.decorationType := by
  induction l with
  | nil => rfl
  | cons e l ih => simpa [disposeEvents, disposedHandles] using ih

theorem createdHandles_createEvents (k : Nat) (entries : List (JSString × JValue)) :
    createdHandles (createEvents k entries) = List.range' k entries.length := by
  induction entries generalizing k with
  | nil => rfl
  | cons e rest ih => simp [createEvents, createdHandles, ih, List.range'_succ]

theorem disposedHandles_createEvents (k : Nat) (entries : List (JSString × JValue)) :
    disposedHandles (createEvents k entries) = [] := by
  induction entries generalizing k with
  | nil => rfl
  | cons e rest ih => simp [createEvents, disposedHandles, ih]

theorem map_decorationType_freshEntries (k : Nat) (entries : List (JSString × JValue)) :
    (freshEntries k entries).map (fun entry => entry.decorationType)
      = List.range' k entries.length := by
  induction entries generalizing k with
  | nil => rfl
  | cons e rest ih => simp [freshEntries, ih, List.range'_succ]

theorem map_word_freshEntries (k : Nat) (entries : List (JSString × JValue)) :
    (freshEntries k entries).map (fun entry => entry.word) = entries.map Prod.fst := by
  induction entries generalizing k with
  | nil => rfl
  | cons e rest ih => simp [freshEntries, ih]

theorem mem_liveHandles {log : List Event} {h : Nat} :
    h ∈ liveHandles log ↔ h ∈ createdHandles log ∧ h ∉ disposedHandles log := by
  simp [liveHandles, List.mem_filter]

/-- A successful load keeps the module state and the host in agreement. -/
theorem consistent_after_load {st : State} {host : Host} (entries : List (JSString × JValue))
    (value : JValue) (message : JSString) (h : Consistent st host) :
    Consistent
      { decorationTypes := freshEntries host.nextHandle entries, wordColorMap := value }
      { nextHandle := host.nextHandle + entries.length,
        log := host.log ++ disposeEvents st.decorationTypes ++
          createEvents host.nextHandle entries ++ [Event.showInformationMessage message] } := by
  obtain ⟨hlive, hlt, hsub, hcn, hdn⟩ := h
  have hc : createdHandles (host.log ++ disposeEvents st.decorationTypes ++
      createEvents host.nextHandle entries ++ [Event.showInformationMessage message])
      = createdHandles host.log ++ List.range' host.nextHandle entries.length := by
    simp [createdHandles_append, createdHandles_disposeEvents, createdHandles_createEvents,
      createdHandles]
  have hd : disposedHandles (host.log ++ disposeEvents st.decorationTypes ++
      createEvents host.nextHandle entries ++ [Event.showInformationMessage message])
      = disposedHandles host.log ++ liveHandles host.log := by
    simp [disposedHandles_append, disposedHandles_disposeEvents, disposedHandles_createEvents,
      disposedHandles, hlive]
  refine ⟨?_, ?_, ?_, ?_, ?_⟩
  · show (freshEntries host.nextHandle entries).map (fun entry => entry.decorationType) = _
    rw [map_decorationType_freshEntries, liveHandles, hc, hd, List.filter_append]
    have h1 : (createdHandles host.log).filter
        (fun h => decide (h ∉ disposedHandles host.log ++ liveHandles host.log)) = [] := by
      rw [List.filter_eq_nil_iff]
      intro a ha
      simp only [List.mem_append, mem_liveHandles, decide_eq_true_eq, not_not]
      by_cases hx : a ∈ disposedHandles host.log
      · exact Or.inl hx
      · exact Or.inr ⟨ha, hx⟩
    have h2 : (List.range' host.nextHandle entries.length).filter
        (fun h => decide (h ∉ disposedHandles host.log ++ liveHandles host.log))
        = List.range' host.nextHandle entries.length := by
      rw [List.filter_eq_self]
      intro a ha
      have hge : host.nextHandle ≤ a := (List.mem_range'_1.mp ha).1
      simp only [List.mem_append, mem_liveHandles, decide_eq_true_eq, not_or]
      refine ⟨fun hx => ?_, fun hx => ?_⟩
      · have := hlt a (hsub a hx); omega
      · have := hlt a hx.1; omega
    rw [h1, h2, List.nil_append]
  · intro a ha
    show a < host.nextHandle + entries.length
    rw [hc, List.mem_append] at ha
    rcases ha with ha | ha
    · have := hlt a ha; omega
    · exact (List.mem_range'_1.mp ha).2
  · intro a ha
    rw [hd, List.mem_append] at ha
    rw [hc, List.mem_append]
    rcases ha with ha | ha
    · exact Or.inl (hsub a ha)
    · exact Or.inl (mem_liveHandles.mp ha).1
  · show (createdHandles _).Nodup
    rw [hc, List.nodup_append]
    refine ⟨hcn, List.nodup_range' _ _, ?_⟩
    intro a ha hb
    have := hlt a ha
    have := (List.mem_range'_1.mp hb).1
    omega
  · show (disposedHandles _).Nodup
    rw [hd, List.nodup_append]
    refine ⟨hdn, hcn.filter _, ?_⟩
    intro a ha hb
    exact (mem_liveHandles.mp hb).2 ha

theorem consistent_initial : Consistent State.initial Host.initial := by
  simp [Consistent, State.initial, Host.initial, liveHandles, createdHandles, disposedHandles]

theorem applyDecorations_spec {P : Type} (fuel : Nat) (editor : TextEditor P) :
    ∀ (entries : List DecorationEntry) (requests : List (SetDecorations P)),
      (∀ entry ∈ entries, entry.word ≠ []) → editor.text.length < fuel →
      ∃ issued, applyDecorations fuel editor entries requests
          = Outcome.returned (requests ++ issued) ∧
        List.Forall₂ (fun entry request =>
          request.1 = entry.decorationType ∧
            findAllOccurrences fuel editor.text entry.word editor.document
              = Outcome.returned request.2) entries issued := by
  intro entries
  induction entries with
  | nil => intro requests _ _; exact ⟨[], by simp [applyDecorations], List.Forall₂.nil⟩
  | cons entry rest ih =>
    intro requests hne hfuel
    obtain ⟨starts, hs, _⟩ := findAllOccurrences_greedy editor.document editor.text entry.word
      (hne entry (List.mem_cons_self _ _)) fuel hfuel
    obtain ⟨issued, hi, hall⟩ := ih (requests ++ [(entry.decorationType,
      rangesOf editor.document entry.word starts)])
      (fun e he => hne e (List.mem_cons_of_mem _ he)) hfuel
    refine ⟨(entry.decorationType, rangesOf editor.document entry.word starts) :: issued, ?_,
      List.Forall₂.cons ⟨rfl, hs⟩ hall⟩
    rw [applyDecorations, hs]
    simp only [hi, List.append_assoc, List.singleton_append]

/-- A load that does not reach the creation of decoration types keeps the module state and the
host in agreement: nothing is live afterwards. -/
theorem consistent_after_dispose {st : State} {host : Host} (value : JValue)
    (tail : List Event) (htc : createdHandles tail = []) (htd : disposedHandles tail = [])
    (h : Consistent st host) :
    Consistent
      { decorationTypes := [], wordColorMap := value }
      { nextHandle := host.nextHandle,
        log := host.log ++ disposeEvents st.decorationTypes ++ tail } := by
  have := @consistent_after_load st host [] value [] h
  obtain ⟨g1, g2, g3, g4, g5⟩ := this
  have hc : createdHandles (host.log ++ disposeEvents st.decorationTypes ++ tail)
      = createdHandles (host.log ++ disposeEvents st.decorationTypes ++
          createEvents host.nextHandle [] ++ [Event.showInformationMessage []]) := by
    simp [createdHandles_append, htc, createEvents, createdHandles]
  have hd : disposedHandles (host.log ++ disposeEvents st.decorationTypes ++ tail)
      = disposedHandles (host.log ++ disposeEvents st.decorationTypes ++
          createEvents host.nextHandle [] ++ [Event.showInformationMessage []]) := by
    simp [disposedHandles_append, htd, createEvents, disposedHandles]
  refine ⟨?_, ?_, ?_, ?_, ?_⟩
  · simp only [liveHandles, hc, hd]; exact g1
  · simp only [hc]; simpa using g2
  · simp only [hc, hd]; exact g3
  · simp only [hc]; exact g4
  · simp only [hd]; exact g5

/-- The call `deactivate()` keeps the module state and the host in agreement. -/
theorem consistent_deactivate {st : State} {host : Host} (h : Consistent st host) :
    Consistent (deactivate st host).1 (deactivate st host).2 := by
  have := consistent_after_dispose st.wordColorMap [] rfl rfl h
  simpa [deactivate, disposeDecorationTypes_eq] using this

/-- Every `loadConfiguration` call keeps the module state and the host in agreement. -/
theorem consistent_loadConfiguration (env : Env) {st : State} {host : Host}
    (h : Consistent st host) :
    Consistent (loadConfiguration env st host).1 (loadConfiguration env st host).2 := by
  cases hp : env.configPath with
  | none =>
    simp only [loadConfiguration, disposeDecorationTypes_eq, Host.record, hp]
    exact consistent_after_dispose _ [_] rfl rfl h
  | some path =>
    by_cases hne : path = []
    · simp only [loadConfiguration, disposeDecorationTypes_eq, Host.record, hp, hne, if_true]
      exact consistent_after_dispose _ [_] rfl rfl h
    · cases hr : env.readFileSync path with
      | error message =>
        simp only [loadConfiguration, disposeDecorationTypes_eq, Host.record, hp, hne,
          if_false, hr]
        exact consistent_after_dispose _ [_] rfl rfl h
      | ok content =>
        cases hj : env.jsonParse content with
        | error message =>
          simp only [loadConfiguration, disposeDecorationTypes_eq, Host.record, hp, hne,
            if_false, hr, hj]
          exact consistent_after_dispose _ [_] rfl rfl h
        | ok value =>
          cases he : objectEntries value with
          | none =>
            simp only [loadConfiguration, disposeDecorationTypes_eq, Host.record, hp, hne,
              if_false, hr, hj, he]
            exact consistent_after_dispose _ [_] rfl rfl h
          | some entries =>
            rw [loadConfiguration_of_entries st host hp hne hr hj he]
            exact consistent_after_load entries value _ h

/-! ## The claims -/

theorem wordCharAt_start_of_occurrence {text w : JSString} {i : Nat}
    (hfirst : w.head?.any isWordChar = true)
    (h : (text.drop i).take w.length = w) : wordCharAt text i = true := by
  cases w with
  | nil => simp at hfirst
  | cons c rest =>
    have h0 := getElem?_of_take_drop h 0 (by simp)
    simp only [Nat.add_zero, List.getElem?_cons_zero] at h0
    simp only [List.head?_cons, Option.any_some] at hfirst
    simp only [wordCharAt, h0, hfirst]

theorem wordCharBefore_end_of_occurrence {text w : JSString} {i : Nat}
    (hlast : w.getLast?.any isWordChar = true)
    (h : (text.drop i).take w.length = w) : wordCharBefore text (i + w.length) = true := by
  have hw : w ≠ [] := by
    intro hnil
    rw [hnil] at hlast
    simp at hlast
  have hlen : 0 < w.length := List.length_pos.mpr hw
  have h1 := getElem?_of_take_drop h (w.length - 1) (by omega)
  rw [← List.getLast?_eq_getElem?] at h1
  rw [show i + w.length = (i + (w.length - 1)) + 1 by omega]
  show wordCharAt text (i + (w.length - 1)) = true
  rw [wordCharAt, h1]
  cases hl : w.getLast? with
  | none => rw [hl] at hlast; simp at hlast
  | some c => rw [hl] at hlast; simpa using hlast

/-- For a word whose first and last characters are word characters, the assertion `\b` at
the two ends of an occurrence says what the word boundary of the specification says. -/
theorem matchAt_iff_specBoundary {text w : JSString}
    (hfirst : w.head?.any isWordChar = true) (hlast : w.getLast?.any isWordChar = true)
    (i : Nat) :
    MatchAt text w i ↔
      slice text i (i + w.length) = w ∧ SpecBoundary text i ∧
        SpecBoundary text (i + w.length) := by
  have hw : w ≠ [] := by
    intro hnil
    rw [hnil] at hlast
    simp at hlast
  have hlen : 0 < w.length := List.length_pos.mpr hw
  have key : slice text i (i + w.length) = w →
      (wordBoundaryAt text i = true ↔ SpecBoundary text i) ∧
      (wordBoundaryAt text (i + w.length) = true ↔ SpecBoundary text (i + w.length)) := by
    intro h2
    have hocc : (text.drop i).take w.length = w := by simpa [slice_add] using h2
    have a := wordCharAt_start_of_occurrence hfirst hocc
    have b := wordCharBefore_end_of_occurrence hlast hocc
    have hend : i + w.length ≤ text.length := by
      have h3 := congrArg List.length hocc
      rw [List.length_take, List.length_drop] at h3
      omega
    constructor
    · simp only [wordBoundaryAt, SpecBoundary, a]
      constructor
      · intro h
        refine Or.inr (Or.inr ?_)
        cases hb : wordCharBefore text i with
        | false => simp
        | true => rw [hb] at h; exact absurd h (by decide)
      · rintro (h | h | h)
        · subst h; rfl
        · omega
        · cases hb : wordCharBefore text i with
          | false => rfl
          | true => exact absurd hb h
    · simp only [wordBoundaryAt, SpecBoundary, b]
      constructor
      · intro h
        refine Or.inr (Or.inr ?_)
        cases hc : wordCharAt text (i + w.length) with
        | false => simp
        | true => rw [hc] at h; exact absurd h (by decide)
      · rintro (h | h | h)
        · omega
        · rw [wordCharAt_of_length_le (by omega)]; rfl
        · cases hc : wordCharAt text (i + w.length) with
          | false => rfl
          | true => exact absurd hc.symm h
  constructor
  · rintro ⟨h1, h2, h3⟩
    exact ⟨h2, (key h2).1.mp h1, (key h2).2.mp h3⟩
  · rintro ⟨h2, h1, h3⟩
    exact ⟨(key h2).1.mpr h1, h2, (key h2).2.mpr h3⟩

/-- C1, as amended. For every non-empty word whose first and last characters are word
characters and every text, the scan returns, its start offsets are strictly increasing, and
an offset `i` is reported exactly when the text reads the word at `i`, both `i` and
`i + len(w)` are word boundaries of the specification (a change of character class, or the
start or the end of the text), and `i` does not lie strictly inside a reported match that
starts earlier: the scan is leftmost and non-overlapping. -/
theorem findAllOccurrences_word_edged_leftmost {P : Type} (document : TextDocument P)
    (text w : JSString) (fuel : Nat) (hw : w ≠ [])
    (hfirst : w.head?.any isWordChar = true) (hlast : w.getLast?.any isWordChar = true)
    (hfuel : text.length < fuel) :
    ∃ starts : List Nat,
      findAllOccurrences fuel text w document =
        Outcome.returned
          (starts.map fun i => (document.positionAt i, document.positionAt (i + w.length))) ∧
      starts.Pairwise (fun a b => a < b) ∧
      ∀ i, i ∈ starts ↔
        (slice text i (i + w.length) = w ∧ SpecBoundary text i ∧
          SpecBoundary text (i + w.length) ∧
          ∀ j ∈ starts, ¬ (j < i ∧ i < j + w.length)) := by
  have hlen : 0 < w.length := List.length_pos.mpr hw
  obtain ⟨starts, hs, hg⟩ := findAllOccurrences_greedy document text w hw fuel hfuel
  refine ⟨starts, hs, ?_, fun i => ?_⟩
  · exact hg.pairwise.imp (fun h => by omega)
  · rw [hg.mem_iff i, matchAt_iff_specBoundary hfirst hlast]
    simp only [Nat.zero_le, true_and]
    constructor
    · rintro ⟨⟨h1, h2, h3⟩, h4⟩; exact ⟨h1, h2, h3, h4⟩
    · rintro ⟨h1, h2, h3, h4⟩; exact ⟨⟨h1, h2, h3⟩, h4⟩

/-- C1, concrete case of the specification: the word `TODO` in
`// TODO: fix\nfunc TODOList(){}` is reported once, at offsets 3 to 7. -/
theorem findAllOccurrences_word_edged_leftmost_witness :
    findAllOccurrences 31 todoText (utf16 "TODO") TextDocument.offsets
      = Outcome.returned [(3, 7)] ∧
    ∃ starts : List Nat,
      findAllOccurrences 31 todoText (utf16 "TODO") TextDocument.offsets =
        Outcome.returned (starts.map fun i =>
          (TextDocument.offsets.positionAt i,
            TextDocument.offsets.positionAt (i + (utf16 "TODO").length))) ∧
      starts.Pairwise (fun a b => a < b) ∧
      ∀ i, i ∈ starts ↔
        (slice todoText i (i + (utf16 "TODO").length) = utf16 "TODO" ∧
          SpecBoundary todoText i ∧
          SpecBoundary todoText (i + (utf16 "TODO").length) ∧
          ∀ j ∈ starts, ¬ (j < i ∧ i < j + (utf16 "TODO").length)) :=
  ⟨by decide,
    findAllOccurrences_word_edged_leftmost TextDocument.offsets todoText (utf16 "TODO") 31
      (by decide) (by decide) (by decide) (by decide)⟩

/-- C1 as stated fails. In the text `a a a` the word `a a` occurs at offset 2 between two
changes of character class, and only the occurrence at offset 0 is reported: the scan is
non-overlapping. In the text `#a` the word `#a` occurs at offset 0, between the start and
the end of the text, and is not reported: the word-boundary assertion fails next to `#`. -/
theorem findAllOccurrences_misses_boundary_occurrences :
    (slice (utf16 "#a") 0 (0 + (utf16 "#a").length) = utf16 "#a" ∧
      SpecBoundary (utf16 "#a") 0 ∧ SpecBoundary (utf16 "#a") (0 + (utf16 "#a").length) ∧
      findAllOccurrences 3 (utf16 "#a") (utf16 "#a") TextDocument.offsets
        = Outcome.returned []) ∧
    (slice (utf16 "a a a") 2 (2 + (utf16 "a a").length) = utf16 "a a" ∧
      wordBoundaryAt (utf16 "a a a") 2 = true ∧
      wordBoundaryAt (utf16 "a a a") (2 + (utf16 "a a").length) = true ∧
      findAllOccurrences 6 (utf16 "a a a") (utf16 "a a") TextDocument.offsets
        = Outcome.returned [(0, 3)]) := by
  decide

/-- C2. The pattern source built from any word parses to the word-boundary assertion, one
literal term per character of the word, and the assertion again; for a non-empty word the
scan returns; and every range it returns is `[s, s + len(w))` for an offset `s` where the
text reads the word character for character, with a change of character class at both
ends. `cat` is not reported in `category`, `a.b` not in `axb`, `todo` not in `TODO`. -/
theorem findAllOccurrences_reports_literal_whole_tokens {P : Type} (document : TextDocument P)
    (text w : JSString) :
    parsePattern (patternSource w)
      = some (Term.wordBoundary :: (w.map Term.char ++ [Term.wordBoundary])) ∧
    (∀ fuel, w ≠ [] → text.length < fuel →
      ∃ rs, findAllOccurrences fuel text w document = Outcome.returned rs) ∧
    (∀ fuel rs, findAllOccurrences fuel text w document = Outcome.returned rs →
      ∃ starts : List Nat,
        rs = starts.map (fun s => (document.positionAt s, document.positionAt (s + w.length))) ∧
        ∀ s ∈ starts, slice text s (s + w.length) = w ∧ wordBoundaryAt text s = true ∧
          wordBoundaryAt text (s + w.length) = true) ∧
    findAllOccurrences 9 (utf16 "category") (utf16 "cat") TextDocument.offsets
      = Outcome.returned [] ∧
    findAllOccurrences 4 (utf16 "axb") (utf16 "a.b") TextDocument.offsets
      = Outcome.returned [] ∧
    findAllOccurrences 5 (utf16 "TODO") (utf16 "todo") TextDocument.offsets
      = Outcome.returned [] := by
  refine ⟨parsePattern_patternSource w, ?_, ?_, by decide, by decide, by decide⟩
  · intro fuel hw hfuel
    obtain ⟨starts, hs, _⟩ := findAllOccurrences_greedy document text w hw fuel hfuel
    exact ⟨_, hs⟩
  · intro fuel rs h
    obtain ⟨starts, hs, hm⟩ := findAllOccurrences_sound document text w fuel rs h
    exact ⟨starts, hs, fun s hsm => ⟨(hm s hsm).2.1, (hm s hsm).1, (hm s hsm).2.2⟩⟩

/-- C2, concrete case: the word `a.b` in the text `axb a.b`; the only range is `[4, 7)`. -/
theorem findAllOccurrences_reports_literal_whole_tokens_witness :
    findAllOccurrences 8 (utf16 "axb a.b") (utf16 "a.b") TextDocument.offsets
      = Outcome.returned [(4, 7)] ∧
    ∃ starts : List Nat,
      [(4, 7)] = starts.map (fun s => (TextDocument.offsets.positionAt s,
        TextDocument.offsets.positionAt (s + (utf16 "a.b").length))) ∧
      ∀ s ∈ starts, slice (utf16 "axb a.b") s (s + (utf16 "a.b").length) = utf16 "a.b" ∧
        wordBoundaryAt (utf16 "axb a.b") s = true ∧
        wordBoundaryAt (utf16 "axb a.b") (s + (utf16 "a.b").length) = true :=
  ⟨by decide,
    (findAllOccurrences_reports_literal_whole_tokens TextDocument.offsets (utf16 "axb a.b")
      (utf16 "a.b")).2.2.1 8 [(4, 7)] (by decide)⟩

/-- C4, the failing inputs. On the text `C++` the word `C++` is not reported, because the
assertion `\b` fails between `+` and the end of the text; nor is it reported in
`x = C++ + 1`, while it is reported in `C++x`, where a word character follows. The word
`#tag` is not reported on the text `#tag`. The concrete case of the specification, `a.b`
on `a.b`, gives the single range `[0, 3)`. -/
theorem findAllOccurrences_nonword_edge_not_found :
    findAllOccurrences 4 (utf16 "C++") (utf16 "C++") TextDocument.offsets
      = Outcome.returned [] ∧
    findAllOccurrences 5 (utf16 "#tag") (utf16 "#tag") TextDocument.offsets
      = Outcome.returned [] ∧
    findAllOccurrences 12 (utf16 "x = C++ + 1") (utf16 "C++") TextDocument.offsets
      = Outcome.returned [] ∧
    findAllOccurrences 5 (utf16 "C++x") (utf16 "C++") TextDocument.offsets
      = Outcome.returned [(0, 3)] ∧
    findAllOccurrences 4 (utf16 "a.b") (utf16 "a.b") TextDocument.offsets
      = Outcome.returned [(0, 3)] := by
  decide

/-- C5. For every non-empty word the scan returns the ranges `[i, i + len(w))` of a list of
offsets that all end within the text, are strictly increasing, and of which each starts at
or after the end of every earlier one. -/
theorem findAllOccurrences_ranges_disjoint {P : Type} (document : TextDocument P)
    (text w : JSString) (fuel : Nat) (hw : w ≠ []) (hfuel : text.length < fuel) :
    ∃ starts : List Nat,
      findAllOccurrences fuel text w document =
        Outcome.returned
          (starts.map fun i => (document.positionAt i, document.positionAt (i + w.length))) ∧
      (∀ i ∈ starts, i + w.length ≤ text.length) ∧
      starts.Pairwise (fun a b => a < b) ∧
      starts.Pairwise (fun a b => a + w.length ≤ b) := by
  have hlen : 0 < w.length := List.length_pos.mpr hw
  obtain ⟨starts, hs, hg⟩ := findAllOccurrences_greedy document text w hw fuel hfuel
  exact ⟨starts, hs, fun i hi => (hg.mem i hi).2.end_le_length,
    hg.pairwise.imp (fun h => by omega), hg.pairwise⟩

/-- C5, concrete case: the word `ab` in `ab ab,ab` gives `[0, 2)`, `[3, 5)`, `[6, 8)`. -/
theorem findAllOccurrences_ranges_disjoint_witness :
    findAllOccurrences 9 (utf16 "ab ab,ab") (utf16 "ab") TextDocument.offsets
      = Outcome.returned [(0, 2), (3, 5), (6, 8)] ∧
    ∃ starts : List Nat,
      findAllOccurrences 9 (utf16 "ab ab,ab") (utf16 "ab") TextDocument.offsets =
        Outcome.returned (starts.map fun i =>
          (TextDocument.offsets.positionAt i,
            TextDocument.offsets.positionAt (i + (utf16 "ab").length))) ∧
      (∀ i ∈ starts, i + (utf16 "ab").length ≤ (utf16 "ab ab,ab").length) ∧
      starts.Pairwise (fun a b => a < b) ∧
      starts.Pairwise (fun a b => a + (utf16 "ab").length ≤ b) :=
  ⟨by decide,
    findAllOccurrences_ranges_disjoint TextDocument.offsets (utf16 "ab ab,ab") (utf16 "ab") 9
      (by decide) (by decide)⟩

/-- C10. For a non-empty word made of word characters only, two whole-token occurrences never
overlap, the scan returns, and the reported start offsets are exactly the offsets of the
whole-token occurrences: the text reads the word there, with no word character right before
and none right after. -/
theorem findAllOccurrences_wordlike_complete {P : Type} (document : TextDocument P)
    (text w : JSString) (fuel : Nat) (hw : w ≠ [])
    (hword : ∀ c ∈ w, isWordChar c = true) (hfuel : text.length < fuel) :
    (∀ i j, WholeTokenAt text w i → WholeTokenAt text w j → i < j → i + w.length ≤ j) ∧
    ∃ starts : List Nat,
      findAllOccurrences fuel text w document =
        Outcome.returned
          (starts.map fun i => (document.positionAt i, document.positionAt (i + w.length))) ∧
      starts.Pairwise (fun a b => a < b) ∧
      ∀ i, i ∈ starts ↔ WholeTokenAt text w i := by
  have hlen : 0 < w.length := List.length_pos.mpr hw
  have hiff : ∀ i, MatchAt text w i ↔ WholeTokenAt text w i := fun i => by
    rw [matchAt_iff_of_wordlike hw hword, WholeTokenAt, wordCharBefore_eq_false_iff,
      wordCharAt_eq_false_iff]
  obtain ⟨starts, hs, hg⟩ := findAllOccurrences_greedy document text w hw fuel hfuel
  refine ⟨fun i j hi hj hij => ?_, starts, hs, hg.pairwise.imp (fun h => by omega), fun i => ?_⟩
  · exact MatchAt.no_overlap hword ((hiff i).mpr hi) ((hiff j).mpr hj) hij
  · rw [hg.mem_iff i, ← hiff]
    constructor
    · exact fun h => h.2.1
    · intro hm
      refine ⟨Nat.zero_le _, hm, fun j hj hov => ?_⟩
      have := MatchAt.no_overlap hword (hg.mem j hj).2 hm hov.1
      omega

/-- C10, concrete case: the word `aa` in `aa aaa aa`; only offsets 0 and 7 are whole-token
occurrences, and they are what the scan reports. -/
theorem findAllOccurrences_wordlike_complete_witness :
    findAllOccurrences 10 (utf16 "aa aaa aa") (utf16 "aa") TextDocument.offsets
      = Outcome.returned [(0, 2), (7, 9)] ∧
    WholeTokenAt (utf16 "aa aaa aa") (utf16 "aa") 0 ∧
    ¬ WholeTokenAt (utf16 "aa aaa aa") (utf16 "aa") 3 ∧
    ¬ WholeTokenAt (utf16 "aa aaa aa") (utf16 "aa") 4 ∧
    WholeTokenAt (utf16 "aa aaa aa") (utf16 "aa") 7 ∧
    ((∀ i j, WholeTokenAt (utf16 "aa aaa aa") (utf16 "aa") i →
        WholeTokenAt (utf16 "aa aaa aa") (utf16 "aa") j → i < j →
        i + (utf16 "aa").length ≤ j) ∧
      ∃ starts : List Nat,
        findAllOccurrences 10 (utf16 "aa aaa aa") (utf16 "aa") TextDocument.offsets =
          Outcome.returned (starts.map fun i =>
            (TextDocument.offsets.positionAt i,
              TextDocument.offsets.positionAt (i + (utf16 "aa").length))) ∧
        starts.Pairwise (fun a b => a < b) ∧
        ∀ i, i ∈ starts ↔ WholeTokenAt (utf16 "aa aaa aa") (utf16 "aa") i) :=
  ⟨by decide, by decide, by decide, by decide, by decide,
    findAllOccurrences_wordlike_complete TextDocument.offsets (utf16 "aa aaa aa") (utf16 "aa") 10
      (by decide) (by decide) (by decide)⟩

/-- When the editor is absent or `decorationTypes` is empty, `updateDecorations` returns at
once: no `setDecorations` call and the module state as it was. -/
theorem updateDecorations_noop {P : Type} (fuel : Nat) (editor : Option (TextEditor P))
    (st : State) (h : editor = none ∨ st.decorationTypes = []) :
    updateDecorations fuel editor st = Outcome.returned (st, []) := by
  cases editor with
  | none => rfl
  | some ed =>
    rcases h with h | h
    · exact absurd h (by simp)
    · simp [updateDecorations, h]

/-- When every configured word is non-empty, `updateDecorations` returns with the module
state as it was and one `setDecorations` call per entry of `decorationTypes`, in list
order, each made of the handle of the entry and of what `findAllOccurrences` returns for
the word of the entry on the text of the editor. -/
theorem updateDecorations_requests {P : Type} (fuel : Nat) (ed : TextEditor P) (st : State)
    (hne : ∀ entry ∈ st.decorationTypes, entry.word ≠ []) (hfuel : ed.text.length < fuel) :
    ∃ requests, updateDecorations fuel (some ed) st = Outcome.returned (st, requests) ∧
      List.Forall₂ (fun entry request =>
        request.1 = entry.decorationType ∧
          findAllOccurrences fuel ed.text entry.word ed.document
            = Outcome.returned request.2) st.decorationTypes requests := by
  obtain ⟨issued, hi, hall⟩ := applyDecorations_spec fuel ed st.decorationTypes [] hne hfuel
  by_cases hempty : st.decorationTypes.length = 0
  · have hnil : st.decorationTypes = [] := List.length_eq_zero.mp hempty
    refine ⟨[], by simp [updateDecorations, hnil], ?_⟩
    rw [hnil]
    exact List.Forall₂.nil
  · refine ⟨issued, ?_, hall⟩
    simp only [updateDecorations, hempty, if_false, hi, List.nil_append]

/-- C3, as amended. A load that fails because the file cannot be read or its content is not
valid JSON leaves `wordColorMap` as it was, but it has first disposed every handle of
`decorationTypes`, once each and in list order, and emptied the list; it creates no handle
and shows one error message. The next `updateDecorations` therefore issues no request. -/
theorem loadConfiguration_failure_disposes {P : Type} (env : Env) (path message : JSString)
    (st : State) (host : Host)
    (hpath : env.configPath = some path) (hne : path ≠ [])
    (hfail : env.readFileSync path = Except.error message ∨
      ∃ content, env.readFileSync path = Except.ok content ∧
        env.jsonParse content = Except.error message) :
    loadConfiguration env st host =
      ({ decorationTypes := [], wordColorMap := st.wordColorMap },
        { nextHandle := host.nextHandle,
          log := host.log ++ disposeEvents st.decorationTypes ++
            [Event.showErrorMessage (errorMessage message)] }) ∧
    ∀ (fuel : Nat) (editor : Option (TextEditor P)),
      updateDecorations fuel editor (loadConfiguration env st host).1
        = Outcome.returned ((loadConfiguration env st host).1, []) := by
  have h := loadConfiguration_of_failure st host hpath hne hfail
  refine ⟨h, fun fuel editor => updateDecorations_noop fuel editor _ (Or.inr ?_)⟩
  rw [h]

/-- C3, concrete case: the mapping `{"TODO":"#ffff00"}` is loaded, then the file is gone. -/
theorem loadConfiguration_failure_disposes_witness :
    loadConfiguration missingFileEnv
        todoLoaded.1
        todoLoaded.2 =
      ({ decorationTypes := [],
         wordColorMap := todoLoaded.1.wordColorMap },
        { nextHandle := todoLoaded.2.nextHandle,
          log := todoLoaded.2.log ++
            disposeEvents todoLoaded.1.decorationTypes ++
            [Event.showErrorMessage
              (errorMessage (utf16 "ENOENT: no such file or directory"))] }) ∧
    ∀ (fuel : Nat) (editor : Option (TextEditor Nat)),
      updateDecorations fuel editor
          (loadConfiguration missingFileEnv
            todoLoaded.1
            todoLoaded.2).1
        = Outcome.returned
          ((loadConfiguration missingFileEnv
            todoLoaded.1
            todoLoaded.2).1, []) :=
  loadConfiguration_failure_disposes missingFileEnv (utf16 "/home/u/words.json")
    (utf16 "ENOENT: no such file or directory") todoLoaded.1
    todoLoaded.2 rfl (by decide) (Or.inl rfl)

/-- C3 as stated fails. The mapping `{"TODO":"#ffff00"}` is loaded: one handle, number 0, and
`TODO` is highlighted in `// TODO`. Then the file cannot be read: after the failed load the
list of handles is empty, handle 0 has been disposed, and nothing is highlighted. -/
theorem loadConfiguration_failure_not_atomic :
    todoLoaded.1.decorationTypes
      = [{ word := utf16 "TODO", decorationType := 0 }] ∧
    disposedHandles todoLoaded.2.log = [] ∧
    (updateDecorations 8 (some { text := utf16 "// TODO", document := TextDocument.offsets })
        todoLoaded.1).toOption.map Prod.snd
      = some [(0, [(3, 7)])] ∧
    (loadConfiguration missingFileEnv
        todoLoaded.1
        todoLoaded.2).1.decorationTypes = [] ∧
    disposedHandles (loadConfiguration missingFileEnv
        todoLoaded.1
        todoLoaded.2).2.log = [0] ∧
    (updateDecorations 8 (some { text := utf16 "// TODO", document := TextDocument.offsets })
        (loadConfiguration missingFileEnv
          todoLoaded.1
          todoLoaded.2).1).toOption.map Prod.snd
      = some [] := by
  decide

/-- C6, the failing input. The file holds the JSON text `5`, which is valid JSON and not an
object: the load shows no error message but the success message for 0 words, and
`wordColorMap`, declared as a map of strings to strings, is now the number 5. -/
theorem loadConfiguration_accepts_number :
    (loadConfiguration numberEnv State.initial Host.initial).1.wordColorMap = JValue.number 5 ∧
    (loadConfiguration numberEnv State.initial Host.initial).2.log
      = [Event.showInformationMessage
          (utf16 "Word Highlighter: Loaded 0 word(s) from configuration")] :=
  ⟨rfl, rfl⟩

/-- C7. The file holds a JSON object `m` of strings to strings and the module state agrees
with the host. After each of two loads in a row `wordColorMap` is `m` and `decorationTypes`
holds one entry per key of `m`, in the key order of `m`, with the handles the host handed
out during that load. The second load appends to the log of the host, in this order: the
disposal of each handle the first load created, once each; the creation of its own handles;
the success message. After each load the module state agrees with the host: the handles of
`decorationTypes` are the handles created and not yet disposed, and none is disposed
twice. -/
theorem loadConfiguration_twice (env : Env) (path content : JSString)
    (m : List (JSString × JSString)) (st : State) (host : Host)
    (hpath : env.configPath = some path) (hne : path ≠ [])
    (hread : env.readFileSync path = Except.ok content)
    (hparse : env.jsonParse content = Except.ok (JValue.ofMap m))
    (hcons : Consistent st host) :
    (loadConfiguration env st host).1.wordColorMap = JValue.ofMap m ∧
    (loadConfiguration env st host).1.decorationTypes.map (fun entry => entry.word)
      = m.map Prod.fst ∧
    (loadConfiguration env st host).1.decorationTypes.map (fun entry => entry.decorationType)
      = List.range' host.nextHandle m.length ∧
    createdHandles (loadConfiguration env st host).2.log
      = createdHandles host.log ++ List.range' host.nextHandle m.length ∧
    Consistent (loadConfiguration env st host).1 (loadConfiguration env st host).2 ∧
    (loadConfiguration env (loadConfiguration env st host).1
        (loadConfiguration env st host).2).1.wordColorMap = JValue.ofMap m ∧
    (loadConfiguration env (loadConfiguration env st host).1
        (loadConfiguration env st host).2).1.decorationTypes.map (fun entry => entry.word)
      = m.map Prod.fst ∧
    (loadConfiguration env (loadConfiguration env st host).1
        (loadConfiguration env st host).2).1.decorationTypes.map
          (fun entry => entry.decorationType)
      = List.range' (host.nextHandle + m.length) m.length ∧
    (loadConfiguration env (loadConfiguration env st host).1
        (loadConfiguration env st host).2).2.log
      = (loadConfiguration env st host).2.log ++
          (List.range' host.nextHandle m.length).map Event.dispose ++
          createEvents (host.nextHandle + m.length)
            (m.map fun kv => (kv.1, JValue.string kv.2)) ++
          [Event.showInformationMessage (loadedMessage m.length)] ∧
    Consistent
      (loadConfiguration env (loadConfiguration env st host).1 (loadConfiguration env st host).2).1
      (loadConfiguration env (loadConfiguration env st host).1
        (loadConfiguration env st host).2).2 := by
  have hentries : objectEntries (JValue.ofMap m)
      = some (m.map fun kv => (kv.1, JValue.string kv.2)) := rfl
  have h1 := loadConfiguration_of_entries st host hpath hne hread hparse hentries
  have hc1 := consistent_loadConfiguration env hcons
  have h2 := loadConfiguration_of_entries (loadConfiguration env st host).1
    (loadConfiguration env st host).2 hpath hne hread hparse hentries
  have hc2 := consistent_loadConfiguration env hc1
  have hlen : (m.map fun kv => (kv.1, JValue.string kv.2)).length = m.length := by simp
  have hfst : (m.map fun kv => (kv.1, JValue.string kv.2)).map Prod.fst = m.map Prod.fst := by
    simp [Function.comp_def]
  have hdisp : disposeEvents (loadConfiguration env st host).1.decorationTypes
      = (List.range' host.nextHandle m.length).map Event.dispose := by
    rw [h1]
    simp only [disposeEvents]
    rw [← hlen, ← map_decorationType_freshEntries, List.map_map]
    rfl
  have hnext : (loadConfiguration env st host).2.nextHandle = host.nextHandle + m.length := by
    rw [h1, hlen]
  refine ⟨?_, ?_, ?_, ?_, hc1, ?_, ?_, ?_, ?_, hc2⟩
  · rw [h1]
  · rw [h1]; simp only [map_word_freshEntries, hfst]
  · rw [h1]; simp only [map_decorationType_freshEntries, hlen]
  · rw [h1]
    simp [createdHandles_append, createdHandles_disposeEvents, createdHandles_createEvents,
      createdHandles]
  · rw [h2]
  · rw [h2]; simp only [map_word_freshEntries, hfst]
  · rw [h2]; simp only [map_decorationType_freshEntries, hlen, hnext]
  · rw [h2, hdisp, hnext, hlen]

/-- C7, concrete case: `{"TODO":"#ffff00"}` loaded twice from the initial state. The second
load disposes handle 0 and holds handle 1. -/
theorem loadConfiguration_twice_witness :
    (loadConfiguration todoEnv todoLoaded.1 todoLoaded.2).1.decorationTypes
      = [{ word := utf16 "TODO", decorationType := 1 }] ∧
    disposedHandles (loadConfiguration todoEnv todoLoaded.1 todoLoaded.2).2.log = [0] ∧
    liveHandles (loadConfiguration todoEnv todoLoaded.1 todoLoaded.2).2.log = [1] ∧
    Consistent (loadConfiguration todoEnv todoLoaded.1 todoLoaded.2).1
      (loadConfiguration todoEnv todoLoaded.1 todoLoaded.2).2 :=
  ⟨by decide, by decide, by decide,
    (loadConfiguration_twice todoEnv (utf16 "/home/u/words.json")
      (utf16 "\x7b\"TODO\":\"#ffff00\"\x7d") [(utf16 "TODO", utf16 "#ffff00")]
      State.initial Host.initial rfl (by decide) rfl rfl consistent_initial).2.2.2.2.2.2.2.2.2⟩

/-- C8, the failing input. The configuration `{"":"#fff"}` has been loaded, so that
`decorationTypes` holds one entry, whose word is empty; the editor shows the text `a`.
Whatever the iteration budget, `updateDecorations` is still inside the scan loop when the
budget ends: it issues no `setDecorations` call. -/
theorem updateDecorations_empty_word_outOfFuel (fuel : Nat) :
    emptyKeyLoaded.1.decorationTypes = [{ word := [], decorationType := 0 }] ∧
    updateDecorations fuel
        (some { text := utf16 "a", document := TextDocument.offsets }) emptyKeyLoaded.1
      = Outcome.outOfFuel := by
  have hst : emptyKeyLoaded.1.decorationTypes = [{ word := [], decorationType := 0 }] := rfl
  refine ⟨hst, ?_⟩
  have hscan := findAllOccurrences_nil_outOfFuel TextDocument.offsets (utf16 "a") 0
    (by decide) fuel
  simp only [updateDecorations, hst, applyDecorations, hscan]
  rfl

/-- C9, the failing input. A successful load of `{"":"#fff"}` installs the empty word. Its
pattern is `\b\b`; on the text `a` the call `exec` matches the empty string at index 0 and
leaves `lastIndex` at 0, so the next call does the same: whatever the iteration budget, the
scan loop of `findAllOccurrences` has not ended when the budget ends. -/
theorem findAllOccurrences_empty_key_outOfFuel (fuel : Nat) :
    emptyKeyLoaded.1.wordColorMap = JValue.ofMap [([], utf16 "#fff")] ∧
    emptyKeyLoaded.1.decorationTypes.map (fun entry => entry.word) = [[]] ∧
    RegExp.new (patternSource [])
      = some { terms := [Term.wordBoundary, Term.wordBoundary], lastIndex := 0 } ∧
    RegExp.exec { terms := [Term.wordBoundary, Term.wordBoundary], lastIndex := 0 } (utf16 "a")
      = (some 0, { terms := [Term.wordBoundary, Term.wordBoundary], lastIndex := 0 }) ∧
    findAllOccurrences fuel (utf16 "a") [] TextDocument.offsets = Outcome.outOfFuel :=
  ⟨rfl, rfl, rfl, rfl,
    findAllOccurrences_nil_outOfFuel TextDocument.offsets (utf16 "a") 0 (by decide) fuel⟩

end WordHighlighter
